import Mathlib

/-!
Shallow embedding of `account_move_template/models/account_move_template.py`
(module `account_move_template` of the repository).

The embedded functions are `AccountMoveTemplate.eval_computed_line`,
`AccountMoveTemplate.compute_lines` (here `eval_computed_line` and
`compute_lines`) and the constraint `AccountMoveTemplateLine.check_python_code`
(here `check_python_code`).

Modelling decisions, recorded once here:

* Python `float` amounts are modelled as `ℚ`.  A dict
  `sequence2amount : int → float` is an association list `AMap` in insertion
  order; `AMap.insert` replaces the value of an existing key in place and
  appends a fresh key at the end, `AMap.erase` models `dict.pop` (the caller
  of `erase` checks membership first, since `dict.pop` without a default
  raises `KeyError`), exactly like a Python dict with unique keys.

* `line.python_code` is a piece of user-authored text.  It is modelled by
  `PyCode`: `absent` is falsy text (`False`/empty, the unset `Text` field),
  `synErr` is any text that `compile` rejects (a `SyntaxError`), and
  `code e` is text that parses to the arithmetic expression `e` over the
  names `L<seq>` that `eval_computed_line` binds ("L%d" % seq, so only
  non-negative sequences are referenceable, a negative one never names a
  valid identifier).  `Expr.ref n` reads the name of sequence `n`.

* `safe_eval` is `odoo.tools.safe_eval`, an external dependency of the
  source file, modelled from its behaviour: a text that does not compile
  raises `SyntaxError`; evaluation errors such as `NameError` for an unbound
  name are re-raised wrapped in `ValueError`; `ZeroDivisionError` is on
  safe_eval's explicit re-raise list and escapes unwrapped.

* Odoo's `float_round(value, precision_rounding=prec)` with the default
  HALF-UP method is modelled as rounding `value / prec` half away from zero
  to an integer and scaling back, returning `0` when `prec == 0` or
  `value == 0`, following its source.

* The ORM: `self.line_ids` iterates the template's lines sorted by the
  declared `_order = "sequence, id"` (modelled by `orderedLines`, a merge
  sort with the lexicographic key); `filtered` keeps that order.  Raising
  `UserError` / `ValidationError` / `KeyError` / `ZeroDivisionError` is
  modelled with `Except`; since `compute_lines` mutates the dict it was
  given, its result also carries the final state of that dict in the error
  case, so that the caller-visible state at raise time is explicit.
-/

/-- Kind of a template line, field `type` of `account.move.template.line`:
user input or formula-computed. -/
inductive LType where
  | input
  | computed
deriving DecidableEq

/-- Arithmetic expression over the bound names; `ref n` reads the name
"L%d" % n. -/
inductive Expr where
  | lit (q : ℚ)
  | ref (n : ℕ)
  | neg (a : Expr)
  | add (a b : Expr)
  | sub (a b : Expr)
  | mul (a b : Expr)
  | div (a b : Expr)
deriving DecidableEq

/-- Contents of the `python_code` text field, as seen by `compile`:
absent/falsy text, text with a syntax error, or a parsed expression. -/
inductive PyCode where
  | absent
  | synErr
  | code (e : Expr)
deriving DecidableEq

/-- Python dict from line sequence to amount, in insertion order. -/
abbrev AMap := List (ℤ × ℚ)

/-- Dict lookup: value of the (first) pair with the given key. -/
def AMap.find : AMap → ℤ → Option ℚ
  | [], _ => none
  | p :: m, k => if p.1 = k then some p.2 else AMap.find m k

/-- Dict membership test (`k in d`). -/
def AMap.contains (m : AMap) (k : ℤ) : Bool :=
  (AMap.find m k).isSome

/-- Dict assignment `d[k] = v`: replace in place if present, else append. -/
def AMap.insert : AMap → ℤ → ℚ → AMap
  | [], k, v => [(k, v)]
  | p :: m, k, v => if p.1 = k then (k, v) :: m else p :: AMap.insert m k v

/-- Dict removal `d.pop(k)` (key assumed present, checked by callers). -/
def AMap.erase : AMap → ℤ → AMap
  | [], _ => []
  | p :: m, k => if p.1 = k then m else p :: AMap.erase m k

/-- Keys of the dict, in order. -/
def AMap.keys (m : AMap) : List ℤ :=
  m.map Prod.fst

/-- Exceptions raised while evaluating a formula text, per
odoo.tools.safe_eval: `SyntaxError` from compiling, `ValueError` wrapping
runtime evaluation errors such as `NameError`, and `ZeroDivisionError`
which safe_eval re-raises unwrapped. -/
inductive EvalErr where
  | synErr
  | valueErr
  | zeroDiv
deriving DecidableEq

/-- Evaluation of a parsed arithmetic expression over the bound names;
an unbound reference is a runtime error (surfaced as `ValueError`),
division by zero raises `ZeroDivisionError`. -/
def evalExpr (m : AMap) : Expr → Except EvalErr ℚ
  | .lit q => .ok q
  | .ref n =>
    match AMap.find m (n : ℤ) with
    | some v => .ok v
    | none => .error .valueErr
  | .neg a =>
    match evalExpr m a with
    | .ok x => .ok (-x)
    | .error e => .error e
  | .add a b =>
    match evalExpr m a, evalExpr m b with
    | .ok x, .ok y => .ok (x + y)
    | .error e, _ => .error e
    | .ok _, .error e => .error e
  | .sub a b =>
    match evalExpr m a, evalExpr m b with
    | .ok x, .ok y => .ok (x - y)
    | .error e, _ => .error e
    | .ok _, .error e => .error e
  | .mul a b =>
    match evalExpr m a, evalExpr m b with
    | .ok x, .ok y => .ok (x * y)
    | .error e, _ => .error e
    | .ok _, .error e => .error e
  | .div a b =>
    match evalExpr m a, evalExpr m b with
    | .ok x, .ok y => if y = 0 then .error .zeroDiv else .ok (x / y)
    | .error e, _ => .error e
    | .ok _, .error e => .error e

/-- Model of `odoo.tools.safe_eval(expr, eval_dict)` on a formula text,
with the dict of bound names represented by the sequence-to-amount map the
caller builds it from. -/
def safe_eval (code : PyCode) (m : AMap) : Except EvalErr ℚ :=
  match code with
  | .absent => .error .synErr
  | .synErr => .error .synErr
  | .code e => evalExpr m e

/-- Model of `odoo.tools.float_round(value, precision_rounding=prec)` with
the default HALF-UP method: round half away from zero to a multiple of
`prec`; returns 0 when `prec == 0` or `value == 0`, per its source. -/
def roundHalfAway (q : ℚ) : ℤ :=
  if 0 ≤ q then ⌊q + 1/2⌋ else ⌈q - 1/2⌉

/-- Rounding to a precision increment, see `roundHalfAway`. -/
def float_round (value : ℚ) (precision_rounding : ℚ) : ℚ :=
  if precision_rounding = 0 ∨ value = 0 then 0
  else (roundHalfAway (value / precision_rounding) : ℚ) * precision_rounding

/-- One record of `account.move.template.line`; `id` is the database id
used as tie-breaker in `_order = "sequence, id"`. -/
structure AccountMoveTemplateLine where
  id : ℕ
  sequence : ℤ
  type : LType
  python_code : PyCode
deriving DecidableEq

/-- One record of `account.move.template`; `rounding` is the external read
`self.company_id.currency_id.rounding`, `line_ids` the one2many lines. -/
structure AccountMoveTemplate where
  rounding : ℚ
  line_ids : List AccountMoveTemplateLine
deriving DecidableEq

/-- Order in which the ORM yields `line_ids`, per
`_order = "sequence, id"`. -/
def lineLe (a b : AccountMoveTemplateLine) : Bool :=
  decide (a.sequence < b.sequence ∨ (a.sequence = b.sequence ∧ a.id ≤ b.id))

/-- Lines of the template as the ORM iterates them. -/
def orderedLines (t : AccountMoveTemplate) : List AccountMoveTemplateLine :=
  t.line_ids.mergeSort lineLe

/-- Model of `self.line_ids.filtered(lambda x: x.type == "input")`. -/
def inputLines (t : AccountMoveTemplate) : List AccountMoveTemplateLine :=
  (orderedLines t).filter (fun l => l.type = LType.input)

/-- Model of `self.line_ids.filtered(lambda x: x.type == "computed")`. -/
def computedLines (t : AccountMoveTemplate) : List AccountMoveTemplateLine :=
  (orderedLines t).filter (fun l => l.type = LType.computed)

/-- Exceptions the embedded code can raise.  The two `UserError`s of
`compute_lines` are `missingInputLine` ("You deleted a line in the wizard")
and `extraneousInputLine` ("You added a line in the wizard"); the two
`UserError`s of `eval_computed_line` are `formulaReference` and
`formulaSynError`, both carrying the line's sequence and formula text;
`keyError` is Python's `KeyError` from `dict.pop`; `zeroDivision` is an
unhandled `ZeroDivisionError`; `validationMissingFormula` is the
`ValidationError` of `check_python_code`. -/
inductive PyError where
  | missingInputLine
  | extraneousInputLine
  | formulaReference (sequence : ℤ) (code : PyCode)
  | formulaSynError (sequence : ℤ) (code : PyCode)
  | keyError
  | zeroDivision
  | validationMissingFormula (sequence : ℤ)
deriving DecidableEq

/-- Embedding of `AccountMoveTemplate.eval_computed_line` (source lines
43–67): build the eval dict "L%d" % seq from `sequence2amount`, run
`safe_eval` on the line's formula, store the raw result under the line's
sequence, and translate `ValueError` / `SyntaxError` into the two
`UserError`s.  Any other exception (`ZeroDivisionError`) propagates.  The
returned map is the mutated `sequence2amount`; on error it is unchanged,
since the assignment follows the `safe_eval` call. -/
def eval_computed_line (line : AccountMoveTemplateLine) (sequence2amount : AMap) :
    Except PyError AMap :=
  match safe_eval line.python_code sequence2amount with
  | .ok val => .ok (AMap.insert sequence2amount line.sequence val)
  | .error .valueErr => .error (.formulaReference line.sequence line.python_code)
  | .error .synErr => .error (.formulaSynError line.sequence line.python_code)
  | .error .zeroDiv => .error .zeroDivision

/-- Embedding of the first loop of `compute_lines` (source lines 72–81)
together with the copy bookkeeping: walk the input-typed lines; a sequence
absent from the original dict raises the "You deleted a line" `UserError`;
otherwise `input_sequence2amount.pop(line.sequence)` is executed, which
raises `KeyError` when the copy no longer holds the key. -/
def reconcileInputs : List AccountMoveTemplateLine → AMap → AMap → Except PyError AMap
  | [], _, copy => .ok copy
  | l :: ls, orig, copy =>
    if AMap.contains orig l.sequence then
      if AMap.contains copy l.sequence then
        reconcileInputs ls orig (AMap.erase copy l.sequence)
      else .error .keyError
    else .error .missingInputLine

/-- Embedding of the second loop of `compute_lines` (source lines 90–94):
for each computed line, `eval_computed_line` stores the raw value, then the
entry is overwritten with `float_round` of the value just read back.  The
error case carries the state of the caller's dict at raise time. -/
def evalLoop (prec : ℚ) : List AccountMoveTemplateLine → AMap → Except (PyError × AMap) AMap
  | [], m => .ok m
  | l :: ls, m =>
    match eval_computed_line l m with
    | .error e => .error (e, m)
    | .ok m2 =>
      match AMap.find m2 l.sequence with
      | some v => evalLoop prec ls (AMap.insert m2 l.sequence (float_round v prec))
      | none => .error (.keyError, m2)

/-- Embedding of `AccountMoveTemplate.compute_lines` (source lines 69–95).
The ok value is the completed dict; an error also carries the final state
of the dict the caller supplied, which the source mutates in place. -/
def compute_lines (t : AccountMoveTemplate) (sequence2amount : AMap) :
    Except (PyError × AMap) AMap :=
  match reconcileInputs (inputLines t) sequence2amount sequence2amount with
  | .error e => .error (e, sequence2amount)
  | .ok input_sequence2amount =>
    if input_sequence2amount.isEmpty then
      evalLoop t.rounding (computedLines t) sequence2amount
    else .error (.extraneousInputLine, sequence2amount)

/-- Embedding of the constraint `check_python_code` (source lines 165–172),
declared `@api.constrains("type", "python_code")`: at save time, a computed
line with falsy formula text raises `ValidationError` naming its sequence. -/
def check_python_code : List AccountMoveTemplateLine → Except PyError Unit
  | [] => .ok ()
  | l :: ls =>
    if l.type = LType.computed ∧ l.python_code = PyCode.absent then
      .error (.validationMissingFormula l.sequence)
    else check_python_code ls

/-- Successful processing of one computed line by the loop of
`compute_lines`: evaluate, read back, overwrite with the rounded value.
Used to describe intermediate states of the loop. -/
def stepOk (prec : ℚ) (l : AccountMoveTemplateLine) (m : AMap) : Option AMap :=
  match eval_computed_line l m with
  | .ok m2 =>
    match AMap.find m2 l.sequence with
    | some v => some (AMap.insert m2 l.sequence (float_round v prec))
    | none => none
  | .error _ => none

/-- Iterated `stepOk`: the dict state after a run of successfully processed
computed lines. -/
def runSteps (prec : ℚ) : List AccountMoveTemplateLine → AMap → Option AMap
  | [], m => some m
  | l :: ls, m =>
    match stepOk prec l m with
    | some m2 => runSteps prec ls m2
    | none => none

/-- Variant of the evaluation loop that never materialises the raw value in
the dict: the rounded value is inserted directly.  Proved equal to
`evalLoop`; it witnesses that only rounded values of computed lines are
ever visible to later formulas. -/
def evalLoopRounded (prec : ℚ) :
    List AccountMoveTemplateLine → AMap → Except (PyError × AMap) AMap
  | [], m => .ok m
  | l :: ls, m =>
    match safe_eval l.python_code m with
    | .ok val => evalLoopRounded prec ls (AMap.insert m l.sequence (float_round val prec))
    | .error .valueErr => .error (.formulaReference l.sequence l.python_code, m)
    | .error .synErr => .error (.formulaSynError l.sequence l.python_code, m)
    | .error .zeroDiv => .error (.zeroDivision, m)

/-! Lemmas about the dict operations. -/

theorem AMap.find_insert_self (m : AMap) (k : ℤ) (v : ℚ) :
    AMap.find (AMap.insert m k v) k = some v := by
  induction m with
  | nil => simp [AMap.insert, AMap.find]
  | cons p m ih =>
    by_cases h : p.1 = k
    · simp [AMap.insert, AMap.find, h]
    · simp [AMap.insert, AMap.find, h, ih]

theorem AMap.find_insert_ne (m : AMap) (k : ℤ) (v : ℚ) (j : ℤ) (h : j ≠ k) :
    AMap.find (AMap.insert m k v) j = AMap.find m j := by
  induction m with
  | nil =>
    simp only [AMap.insert, AMap.find]
    rw [if_neg (fun hk => h hk.symm)]
  | cons p m ih =>
    by_cases hp : p.1 = k
    · subst hp
      have hj : ¬ p.1 = j := fun hk => h hk.symm
      simp [AMap.insert, AMap.find, hj]
    · simp only [AMap.insert, if_neg hp]
      by_cases hj : p.1 = j
      · simp [AMap.find, hj]
      · simp [AMap.find, hj, ih]

theorem AMap.contains_insert (m : AMap) (k : ℤ) (v : ℚ) (j : ℤ) :
    AMap.contains (AMap.insert m k v) j = true ↔
      (AMap.contains m j = true ∨ j = k) := by
  by_cases h : j = k
  · subst h
    simp [AMap.contains, AMap.find_insert_self]
  · simp [AMap.contains, AMap.find_insert_ne m k v j h, h]

theorem AMap.insert_insert (m : AMap) (k : ℤ) (v w : ℚ) :
    AMap.insert (AMap.insert m k v) k w = AMap.insert m k w := by
  induction m with
  | nil => simp [AMap.insert]
  | cons p m ih =>
    by_cases h : p.1 = k
    · simp [AMap.insert, h]
    · simp [AMap.insert, h, ih]

theorem AMap.contains_iff_find (m : AMap) (k : ℤ) :
    AMap.contains m k = true ↔ ∃ v, AMap.find m k = some v := by
  simp [AMap.contains, Option.isSome_iff_exists]

theorem AMap.contains_false_iff_find (m : AMap) (k : ℤ) :
    AMap.contains m k = false ↔ AMap.find m k = none := by
  cases h : AMap.find m k <;> simp [AMap.contains, h]

theorem AMap.keys_cons (p : ℤ × ℚ) (m : AMap) :
    AMap.keys (p :: m) = p.1 :: AMap.keys m := rfl

theorem AMap.contains_iff_mem_keys (m : AMap) (k : ℤ) :
    AMap.contains m k = true ↔ k ∈ AMap.keys m := by
  induction m with
  | nil => simp [AMap.contains, AMap.find, AMap.keys]
  | cons p m ih =>
    rw [AMap.keys_cons, List.mem_cons]
    by_cases h : p.1 = k
    · simp [AMap.contains, AMap.find, h]
    · have hc : AMap.contains (p :: m) k = AMap.contains m k := by
        simp [AMap.contains, AMap.find, h]
      rw [hc, ih]
      constructor
      · exact Or.inr
      · rintro (hx | hx)
        · exact absurd hx.symm h
        · exact hx

theorem AMap.mem_keys_of_mem_erase (m : AMap) (k j : ℤ)
    (h : j ∈ AMap.keys (AMap.erase m k)) : j ∈ AMap.keys m := by
  induction m with
  | nil => simp [AMap.erase, AMap.keys] at h
  | cons p m ih =>
    rw [AMap.keys_cons, List.mem_cons]
    by_cases hp : p.1 = k
    · rw [show AMap.erase (p :: m) k = m from by simp [AMap.erase, hp]] at h
      exact Or.inr h
    · rw [show AMap.erase (p :: m) k = p :: AMap.erase m k from by simp [AMap.erase, hp],
        AMap.keys_cons, List.mem_cons] at h
      rcases h with h | h
      · exact Or.inl h
      · exact Or.inr (ih h)

theorem AMap.mem_keys_erase_of_ne (m : AMap) (k j : ℤ) (h : j ≠ k) :
    j ∈ AMap.keys (AMap.erase m k) ↔ j ∈ AMap.keys m := by
  induction m with
  | nil => simp [AMap.erase]
  | cons p m ih =>
    by_cases hp : p.1 = k
    · rw [show AMap.erase (p :: m) k = m from by simp [AMap.erase, hp],
        AMap.keys_cons, List.mem_cons]
      constructor
      · exact Or.inr
      · rintro (hm | hm)
        · exact absurd (hp ▸ hm) h
        · exact hm
    · rw [show AMap.erase (p :: m) k = p :: AMap.erase m k from by simp [AMap.erase, hp],
        AMap.keys_cons, AMap.keys_cons, List.mem_cons, List.mem_cons, ih]

theorem AMap.not_mem_keys_erase_self (m : AMap) (k : ℤ)
    (hm : (AMap.keys m).Nodup) : k ∉ AMap.keys (AMap.erase m k) := by
  induction m with
  | nil => simp [AMap.erase, AMap.keys]
  | cons p m ih =>
    rw [AMap.keys_cons, List.nodup_cons] at hm
    by_cases hp : p.1 = k
    · rw [show AMap.erase (p :: m) k = m from by simp [AMap.erase, hp]]
      exact hp ▸ hm.1
    · rw [show AMap.erase (p :: m) k = p :: AMap.erase m k from by simp [AMap.erase, hp],
        AMap.keys_cons, List.mem_cons]
      rintro (hc | hc)
      · exact hp hc.symm
      · exact ih hm.2 hc

theorem AMap.mem_keys_erase (m : AMap) (k j : ℤ) (hm : (AMap.keys m).Nodup) :
    j ∈ AMap.keys (AMap.erase m k) ↔ (j ∈ AMap.keys m ∧ j ≠ k) := by
  by_cases h : j = k
  · subst h
    simp [AMap.not_mem_keys_erase_self m j hm]
  · simp [AMap.mem_keys_erase_of_ne m k j h, h]

theorem AMap.nodup_keys_erase (m : AMap) (k : ℤ) (hm : (AMap.keys m).Nodup) :
    (AMap.keys (AMap.erase m k)).Nodup := by
  induction m with
  | nil => simp [AMap.erase, AMap.keys]
  | cons p m ih =>
    rw [AMap.keys_cons, List.nodup_cons] at hm
    by_cases hp : p.1 = k
    · rw [show AMap.erase (p :: m) k = m from by simp [AMap.erase, hp]]
      exact hm.2
    · rw [show AMap.erase (p :: m) k = p :: AMap.erase m k from by simp [AMap.erase, hp],
        AMap.keys_cons, List.nodup_cons]
      exact ⟨fun hc => hm.1 (AMap.mem_keys_of_mem_erase m k p.1 hc), ih hm.2⟩

/-! Lemmas about the input reconciliation loop. -/

theorem reconcileInputs_ok_contains (ls : List AccountMoveTemplateLine)
    (orig copy rem : AMap) (h : reconcileInputs ls orig copy = .ok rem) :
    ∀ l ∈ ls, AMap.contains orig l.sequence = true := by
  induction ls generalizing copy with
  | nil => intro l hl; exact absurd hl (List.not_mem_nil l)
  | cons a ls ih =>
    intro l hl
    by_cases ho : AMap.contains orig a.sequence = true
    · by_cases hc : AMap.contains copy a.sequence = true
      · simp only [reconcileInputs, if_pos ho, if_pos hc] at h
        rcases List.mem_cons.mp hl with hl | hl
        · exact hl ▸ ho
        · exact ih _ h l hl
      · simp only [reconcileInputs, if_pos ho, if_neg hc] at h
        exact Except.noConfusion h
    · simp only [reconcileInputs, if_neg ho] at h
      exact Except.noConfusion h

theorem reconcileInputs_error_cases (ls : List AccountMoveTemplateLine)
    (orig copy : AMap) (e : PyError)
    (h : reconcileInputs ls orig copy = .error e) :
    e = PyError.missingInputLine ∨ e = PyError.keyError := by
  induction ls generalizing copy with
  | nil => exact Except.noConfusion h
  | cons a ls ih =>
    by_cases ho : AMap.contains orig a.sequence = true
    · by_cases hc : AMap.contains copy a.sequence = true
      · simp only [reconcileInputs, if_pos ho, if_pos hc] at h
        exact ih _ h
      · simp only [reconcileInputs, if_pos ho, if_neg hc] at h
        exact Or.inr (Except.error.inj h).symm
    · simp only [reconcileInputs, if_neg ho] at h
      exact Or.inl (Except.error.inj h).symm

theorem reconcileInputs_missing_iff (ls : List AccountMoveTemplateLine)
    (orig copy : AMap)
    (hnd : (ls.map (fun l => l.sequence)).Nodup)
    (hsub : ∀ l ∈ ls, AMap.contains orig l.sequence = true →
      AMap.contains copy l.sequence = true) :
    reconcileInputs ls orig copy = .error .missingInputLine ↔
      ∃ l ∈ ls, AMap.contains orig l.sequence = false := by
  induction ls generalizing copy with
  | nil => simp [reconcileInputs]
  | cons a ls ih =>
    rw [List.map_cons, List.nodup_cons] at hnd
    by_cases ho : AMap.contains orig a.sequence = true
    · have hc : AMap.contains copy a.sequence = true :=
        hsub a (List.mem_cons_self a ls) ho
      have hsub2 : ∀ l ∈ ls, AMap.contains orig l.sequence = true →
          AMap.contains (AMap.erase copy a.sequence) l.sequence = true := by
        intro l hl hol
        have hne : l.sequence ≠ a.sequence := by
          intro hq
          exact hnd.1 (hq ▸ List.mem_map_of_mem (fun x => x.sequence) hl)
        rw [AMap.contains_iff_mem_keys, AMap.mem_keys_erase_of_ne _ _ _ hne,
          ← AMap.contains_iff_mem_keys]
        exact hsub l (List.mem_cons_of_mem a hl) hol
      simp only [reconcileInputs, if_pos ho, if_pos hc]
      rw [ih _ hnd.2 hsub2]
      constructor
      · rintro ⟨l, hl, hfl⟩
        exact ⟨l, List.mem_cons_of_mem a hl, hfl⟩
      · rintro ⟨l, hl, hfl⟩
        rcases List.mem_cons.mp hl with hl | hl
        · rw [hl] at hfl
          rw [hfl] at ho
          exact Bool.noConfusion ho
        · exact ⟨l, hl, hfl⟩
    · simp only [reconcileInputs, if_neg ho]
      simp only [Bool.not_eq_true] at ho
      constructor
      · intro _
        exact ⟨a, List.mem_cons_self a ls, ho⟩
      · intro _
        trivial

theorem reconcileInputs_ok_keys (ls : List AccountMoveTemplateLine)
    (orig copy : AMap)
    (hnd : (ls.map (fun l => l.sequence)).Nodup)
    (hndc : (AMap.keys copy).Nodup)
    (hsub : ∀ l ∈ ls, AMap.contains orig l.sequence = true →
      AMap.contains copy l.sequence = true)
    (hall : ∀ l ∈ ls, AMap.contains orig l.sequence = true) :
    ∃ rem, reconcileInputs ls orig copy = .ok rem ∧
      ∀ j, j ∈ AMap.keys rem ↔
        (j ∈ AMap.keys copy ∧ j ∉ ls.map (fun l => l.sequence)) := by
  induction ls generalizing copy with
  | nil =>
    refine ⟨copy, rfl, fun j => ?_⟩
    simp
  | cons a ls ih =>
    rw [List.map_cons, List.nodup_cons] at hnd
    have ho : AMap.contains orig a.sequence = true := hall a (List.mem_cons_self a ls)
    have hc : AMap.contains copy a.sequence = true := hsub a (List.mem_cons_self a ls) ho
    have hsub2 : ∀ l ∈ ls, AMap.contains orig l.sequence = true →
        AMap.contains (AMap.erase copy a.sequence) l.sequence = true := by
      intro l hl hol
      have hne : l.sequence ≠ a.sequence := by
        intro hq
        exact hnd.1 (hq ▸ List.mem_map_of_mem (fun x => x.sequence) hl)
      rw [AMap.contains_iff_mem_keys, AMap.mem_keys_erase_of_ne _ _ _ hne,
        ← AMap.contains_iff_mem_keys]
      exact hsub l (List.mem_cons_of_mem a hl) hol
    obtain ⟨rem, hrem, hkeys⟩ := ih (AMap.erase copy a.sequence) hnd.2
      (AMap.nodup_keys_erase copy a.sequence hndc) hsub2
      (fun l hl => hall l (List.mem_cons_of_mem a hl))
    refine ⟨rem, ?_, ?_⟩
    · simp only [reconcileInputs, if_pos ho, if_pos hc]
      exact hrem
    · intro j
      rw [hkeys j, AMap.mem_keys_erase copy a.sequence j hndc, List.map_cons,
        List.mem_cons]
      constructor
      · rintro ⟨⟨hjc, hja⟩, hjl⟩
        exact ⟨hjc, fun hx => hx.elim hja hjl⟩
      · rintro ⟨hjc, hjl⟩
        exact ⟨⟨hjc, fun hx => hjl (Or.inl hx)⟩, fun hx => hjl (Or.inr hx)⟩

theorem reconcileInputs_ok_keys_outside (ls : List AccountMoveTemplateLine)
    (orig copy rem : AMap) (h : reconcileInputs ls orig copy = .ok rem) :
    ∀ j, j ∉ ls.map (fun l => l.sequence) →
      (j ∈ AMap.keys rem ↔ j ∈ AMap.keys copy) := by
  induction ls generalizing copy with
  | nil =>
    intro j _
    cases h
    exact Iff.rfl
  | cons a ls ih =>
    intro j hj
    rw [List.map_cons, List.mem_cons] at hj
    push_neg at hj
    by_cases ho : AMap.contains orig a.sequence = true
    · by_cases hc : AMap.contains copy a.sequence = true
      · simp only [reconcileInputs, if_pos ho, if_pos hc] at h
        rw [ih _ h j hj.2, AMap.mem_keys_erase_of_ne _ _ _ hj.1]
      · simp only [reconcileInputs, if_pos ho, if_neg hc] at h
        exact Except.noConfusion h
    · simp only [reconcileInputs, if_neg ho] at h
      exact Except.noConfusion h

/-! Lemmas about the computed-line evaluation loop. -/

theorem eval_computed_line_ok (line : AccountMoveTemplateLine) (m m2 : AMap)
    (h : eval_computed_line line m = .ok m2) :
    ∃ val, safe_eval line.python_code m = .ok val ∧
      m2 = AMap.insert m line.sequence val := by
  cases hs : safe_eval line.python_code m with
  | ok val =>
    simp only [eval_computed_line, hs] at h
    exact ⟨val, rfl, (Except.ok.inj h).symm⟩
  | error e =>
    cases e <;> simp only [eval_computed_line, hs] at h <;> exact Except.noConfusion h

theorem eval_computed_line_valueErr (line : AccountMoveTemplateLine) (m : AMap)
    (h : safe_eval line.python_code m = .error .valueErr) :
    eval_computed_line line m =
      .error (.formulaReference line.sequence line.python_code) := by
  simp only [eval_computed_line, h]

theorem eval_computed_line_synErr (line : AccountMoveTemplateLine) (m : AMap)
    (h : safe_eval line.python_code m = .error .synErr) :
    eval_computed_line line m =
      .error (.formulaSynError line.sequence line.python_code) := by
  simp only [eval_computed_line, h]

theorem evalLoop_ok_contains (prec : ℚ) (ls : List AccountMoveTemplateLine)
    (m r : AMap) (h : evalLoop prec ls m = .ok r) :
    ∀ j, AMap.contains r j = true ↔
      (AMap.contains m j = true ∨ j ∈ ls.map (fun l => l.sequence)) := by
  induction ls generalizing m with
  | nil =>
    simp only [evalLoop] at h
    cases h
    simp
  | cons a ls ih =>
    intro j
    cases he : eval_computed_line a m with
    | error e =>
      simp only [evalLoop, he] at h
      exact Except.noConfusion h
    | ok m2 =>
      obtain ⟨val, hs, hm2⟩ := eval_computed_line_ok a m m2 he
      subst hm2
      simp only [evalLoop, he, AMap.find_insert_self, AMap.insert_insert] at h
      rw [ih _ h j, AMap.contains_insert, List.map_cons, List.mem_cons]
      tauto

theorem evalLoop_ok_find_outside (prec : ℚ) (ls : List AccountMoveTemplateLine)
    (m r : AMap) (h : evalLoop prec ls m = .ok r) :
    ∀ j, j ∉ ls.map (fun l => l.sequence) → AMap.find r j = AMap.find m j := by
  induction ls generalizing m with
  | nil =>
    simp only [evalLoop] at h
    cases h
    intro j _
    rfl
  | cons a ls ih =>
    intro j hj
    rw [List.map_cons, List.mem_cons] at hj
    push_neg at hj
    cases he : eval_computed_line a m with
    | error e =>
      simp only [evalLoop, he] at h
      exact Except.noConfusion h
    | ok m2 =>
      obtain ⟨val, hs, hm2⟩ := eval_computed_line_ok a m m2 he
      subst hm2
      simp only [evalLoop, he, AMap.find_insert_self, AMap.insert_insert] at h
      rw [ih _ h j hj.2, AMap.find_insert_ne _ _ _ _ hj.1]

theorem stepOk_some (prec : ℚ) (a : AccountMoveTemplateLine) (m m2 : AMap)
    (h : stepOk prec a m = some m2) :
    ∃ val, safe_eval a.python_code m = .ok val ∧
      m2 = AMap.insert m a.sequence (float_round val prec) := by
  cases he : eval_computed_line a m with
  | error e =>
    simp only [stepOk, he] at h
    exact Option.noConfusion h
  | ok m3 =>
    obtain ⟨val, hs, hm3⟩ := eval_computed_line_ok a m m3 he
    subst hm3
    simp only [stepOk, he, AMap.find_insert_self, AMap.insert_insert] at h
    exact ⟨val, hs, (Option.some.inj h).symm⟩

theorem runSteps_some_contains (prec : ℚ) (ls : List AccountMoveTemplateLine)
    (m mk : AMap) (h : runSteps prec ls m = some mk) :
    ∀ j, AMap.contains mk j = true ↔
      (AMap.contains m j = true ∨ j ∈ ls.map (fun l => l.sequence)) := by
  induction ls generalizing m with
  | nil =>
    simp only [runSteps] at h
    cases h
    simp
  | cons a ls ih =>
    intro j
    cases hst : stepOk prec a m with
    | none =>
      simp only [runSteps, hst] at h
      exact Option.noConfusion h
    | some m2 =>
      obtain ⟨val, hs, hm2⟩ := stepOk_some prec a m m2 hst
      subst hm2
      simp only [runSteps, hst] at h
      rw [ih _ h j, AMap.contains_insert, List.map_cons, List.mem_cons]
      tauto

theorem evalLoop_error_take (prec : ℚ) (ls : List AccountMoveTemplateLine)
    (m s : AMap) (e : PyError) (h : evalLoop prec ls m = .error (e, s)) :
    ∃ k, runSteps prec (ls.take k) m = some s := by
  induction ls generalizing m with
  | nil =>
    simp only [evalLoop] at h
    exact Except.noConfusion h
  | cons a ls ih =>
    cases he : eval_computed_line a m with
    | error e2 =>
      simp only [evalLoop, he, Except.error.injEq, Prod.mk.injEq] at h
      refine ⟨0, ?_⟩
      rw [List.take_zero, runSteps, h.2]
    | ok m2 =>
      obtain ⟨val, hs, hm2⟩ := eval_computed_line_ok a m m2 he
      subst hm2
      simp only [evalLoop, he, AMap.find_insert_self, AMap.insert_insert] at h
      obtain ⟨k, hk⟩ := ih _ h
      refine ⟨k + 1, ?_⟩
      rw [List.take_succ_cons, runSteps]
      have hstep : stepOk prec a m =
          some (AMap.insert m a.sequence (float_round val prec)) := by
        simp only [stepOk, he, AMap.find_insert_self, AMap.insert_insert]
      rw [hstep]
      exact hk

/-! Lemmas about the ORM ordering of the lines. -/

theorem lineLe_trans (a b c : AccountMoveTemplateLine)
    (hab : lineLe a b = true) (hbc : lineLe b c = true) : lineLe a c = true := by
  simp only [lineLe, decide_eq_true_eq] at *
  rcases hab with h1 | ⟨h1, h2⟩ <;> rcases hbc with h3 | ⟨h3, h4⟩
  · exact Or.inl (h1.trans h3)
  · exact Or.inl (h3 ▸ h1)
  · exact Or.inl (h1 ▸ h3)
  · exact Or.inr ⟨h1.trans h3, h2.trans h4⟩

theorem lineLe_total (a b : AccountMoveTemplateLine) :
    (lineLe a b || lineLe b a) = true := by
  simp only [lineLe, Bool.or_eq_true, decide_eq_true_eq]
  rcases lt_trichotomy a.sequence b.sequence with h | h | h
  · exact Or.inl (Or.inl h)
  · rcases Nat.le_total a.id b.id with h2 | h2
    · exact Or.inl (Or.inr ⟨h, h2⟩)
    · exact Or.inr (Or.inr ⟨h.symm, h2⟩)
  · exact Or.inr (Or.inl h)

theorem seq_le_of_lineLe (a b : AccountMoveTemplateLine)
    (h : lineLe a b = true) : a.sequence ≤ b.sequence := by
  simp only [lineLe, decide_eq_true_eq] at h
  rcases h with h | ⟨h, _⟩
  · exact le_of_lt h
  · exact le_of_eq h

theorem orderedLines_perm (t : AccountMoveTemplate) :
    (orderedLines t).Perm t.line_ids :=
  List.mergeSort_perm t.line_ids lineLe

theorem pairwise_orderedLines (t : AccountMoveTemplate) :
    List.Pairwise (fun a b => lineLe a b = true) (orderedLines t) :=
  List.sorted_mergeSort lineLe_trans lineLe_total t.line_ids

theorem pairwise_computedLines (t : AccountMoveTemplate) :
    List.Pairwise (fun a b => lineLe a b = true) (computedLines t) :=
  List.Pairwise.sublist (List.filter_sublist (orderedLines t)) (pairwise_orderedLines t)

theorem computedSeqs_sorted (t : AccountMoveTemplate) :
    List.Pairwise (fun a b => a ≤ b)
      ((computedLines t).map (fun l => l.sequence)) :=
  List.Pairwise.map _ (fun a b hab => seq_le_of_lineLe a b hab)
    (pairwise_computedLines t)

theorem nodup_orderedSeqs (t : AccountMoveTemplate)
    (hnd : (t.line_ids.map (fun l => l.sequence)).Nodup) :
    ((orderedLines t).map (fun l => l.sequence)).Nodup :=
  ((orderedLines_perm t).symm.map (fun l => l.sequence)).nodup hnd

theorem nodup_inputSeqs (t : AccountMoveTemplate)
    (hnd : (t.line_ids.map (fun l => l.sequence)).Nodup) :
    ((inputLines t).map (fun l => l.sequence)).Nodup :=
  List.Nodup.sublist
    (List.Sublist.map (fun l => l.sequence) (List.filter_sublist (orderedLines t)))
    (nodup_orderedSeqs t hnd)

theorem nodup_computedSeqs (t : AccountMoveTemplate)
    (hnd : (t.line_ids.map (fun l => l.sequence)).Nodup) :
    ((computedLines t).map (fun l => l.sequence)).Nodup :=
  List.Nodup.sublist
    (List.Sublist.map (fun l => l.sequence) (List.filter_sublist (orderedLines t)))
    (nodup_orderedSeqs t hnd)

theorem computedSeqs_strict (t : AccountMoveTemplate)
    (hnd : (t.line_ids.map (fun l => l.sequence)).Nodup) :
    List.Pairwise (fun a b => a < b)
      ((computedLines t).map (fun l => l.sequence)) := by
  have h1 := computedSeqs_sorted t
  have h2 : List.Pairwise (fun a b => a ≠ b)
      ((computedLines t).map (fun l => l.sequence)) := nodup_computedSeqs t hnd
  exact (List.Pairwise.and h1 h2).imp (fun hab => lt_of_le_of_ne hab.1 hab.2)

theorem mem_lineSeqs_iff (t : AccountMoveTemplate) (j : ℤ) :
    j ∈ t.line_ids.map (fun l => l.sequence) ↔
      (j ∈ (inputLines t).map (fun l => l.sequence) ∨
       j ∈ (computedLines t).map (fun l => l.sequence)) := by
  rw [← ((orderedLines_perm t).map (fun l => l.sequence)).mem_iff]
  constructor
  · intro hj
    obtain ⟨l, hl, hlj⟩ := List.mem_map.mp hj
    cases hlt : l.type with
    | input =>
      exact Or.inl (List.mem_map.mpr
        ⟨l, List.mem_filter.mpr ⟨hl, by simp [hlt]⟩, hlj⟩)
    | computed =>
      exact Or.inr (List.mem_map.mpr
        ⟨l, List.mem_filter.mpr ⟨hl, by simp [hlt]⟩, hlj⟩)
  · rintro (hj | hj) <;> obtain ⟨l, hl, hlj⟩ := List.mem_map.mp hj <;>
      exact List.mem_map.mpr ⟨l, (List.mem_filter.mp hl).1, hlj⟩

theorem pairwise_take_get {α : Type} (R : α → α → Prop) (l : List α) (k : ℕ)
    (x : α) (hp : List.Pairwise R l) (hx : l[k]? = some x) :
    ∀ y ∈ l.take k, R y x := by
  revert hp hx
  induction l generalizing k with
  | nil =>
    intro hp hx
    simp at hx
  | cons a l ih =>
    intro hp hx
    cases k with
    | zero =>
      intro y hy
      simp at hy
    | succ k =>
      intro y hy
      rw [List.getElem?_cons_succ] at hx
      rw [List.take_succ_cons, List.mem_cons] at hy
      rcases hy with hy | hy
      · subst hy
        exact (List.pairwise_cons.mp hp).1 x (List.getElem?_mem hx)
      · exact ih k (List.pairwise_cons.mp hp).2 hx y hy

/-! Shape lemmas for `compute_lines` results. -/

theorem eval_computed_line_error_cases (line : AccountMoveTemplateLine)
    (m : AMap) (e : PyError) (h : eval_computed_line line m = .error e) :
    e = PyError.formulaReference line.sequence line.python_code ∨
    e = PyError.formulaSynError line.sequence line.python_code ∨
    e = PyError.zeroDivision := by
  cases hs : safe_eval line.python_code m with
  | ok val =>
    simp only [eval_computed_line, hs] at h
    exact Except.noConfusion h
  | error e2 =>
    cases e2 with
    | synErr =>
      simp only [eval_computed_line, hs] at h
      exact Or.inr (Or.inl (Except.error.inj h).symm)
    | valueErr =>
      simp only [eval_computed_line, hs] at h
      exact Or.inl (Except.error.inj h).symm
    | zeroDiv =>
      simp only [eval_computed_line, hs] at h
      exact Or.inr (Or.inr (Except.error.inj h).symm)

theorem evalLoop_error_cases (prec : ℚ) (ls : List AccountMoveTemplateLine)
    (m s : AMap) (e : PyError) (h : evalLoop prec ls m = .error (e, s)) :
    e ≠ PyError.missingInputLine ∧ e ≠ PyError.extraneousInputLine := by
  induction ls generalizing m with
  | nil =>
    simp only [evalLoop] at h
    exact Except.noConfusion h
  | cons a ls ih =>
    cases he : eval_computed_line a m with
    | error e2 =>
      simp only [evalLoop, he, Except.error.injEq, Prod.mk.injEq] at h
      rcases eval_computed_line_error_cases a m e2 he with h2 | h2 | h2 <;>
        rw [← h.1, h2] <;> exact ⟨by simp, by simp⟩
    | ok m2 =>
      obtain ⟨val, hs, hm2⟩ := eval_computed_line_ok a m m2 he
      subst hm2
      simp only [evalLoop, he, AMap.find_insert_self, AMap.insert_insert] at h
      exact ih _ h

theorem compute_lines_ok_parts (t : AccountMoveTemplate) (m r : AMap)
    (h : compute_lines t m = .ok r) :
    ∃ rem, reconcileInputs (inputLines t) m m = .ok rem ∧ rem = [] ∧
      evalLoop t.rounding (computedLines t) m = .ok r := by
  cases hr : reconcileInputs (inputLines t) m m with
  | error e =>
    simp only [compute_lines, hr] at h
    exact Except.noConfusion h
  | ok rem =>
    simp only [compute_lines, hr] at h
    by_cases he : rem.isEmpty = true
    · rw [if_pos he] at h
      exact ⟨rem, rfl, List.isEmpty_iff.mp he, h⟩
    · rw [if_neg he] at h
      exact Except.noConfusion h

theorem compute_lines_error_parts (t : AccountMoveTemplate) (m s : AMap)
    (e : PyError) (h : compute_lines t m = .error (e, s)) :
    (reconcileInputs (inputLines t) m m = .error e ∧ s = m) ∨
    (∃ rem, reconcileInputs (inputLines t) m m = .ok rem ∧ rem ≠ [] ∧
      e = PyError.extraneousInputLine ∧ s = m) ∨
    (∃ rem, reconcileInputs (inputLines t) m m = .ok rem ∧ rem = [] ∧
      evalLoop t.rounding (computedLines t) m = .error (e, s)) := by
  cases hr : reconcileInputs (inputLines t) m m with
  | error e2 =>
    simp only [compute_lines, hr, Except.error.injEq, Prod.mk.injEq] at h
    exact Or.inl ⟨h.1 ▸ rfl, h.2.symm⟩
  | ok rem =>
    simp only [compute_lines, hr] at h
    by_cases he : rem.isEmpty = true
    · rw [if_pos he] at h
      exact Or.inr (Or.inr ⟨rem, rfl, List.isEmpty_iff.mp he, h⟩)
    · rw [if_neg he] at h
      simp only [Except.error.injEq, Prod.mk.injEq] at h
      refine Or.inr (Or.inl ⟨rem, rfl, ?_, h.1.symm, h.2.symm⟩)
      intro hnil
      exact he (List.isEmpty_iff.mpr hnil)

/-! Claim C1. -/

/-- Template with two computed lines (no inputs), the second of which
references a sequence that is never bound, used to exhibit the in-place
mutation of the caller's dict by a failing run. -/
def tMut : AccountMoveTemplate :=
  { rounding := 1/100,
    line_ids := [
      { id := 1, sequence := 1, type := .computed, python_code := .code (.lit 42) },
      { id := 2, sequence := 2, type := .computed, python_code := .code (.ref 9) }] }

/-- C1, counterexample: running `compute_lines` on `tMut` with an empty
caller dict fails, and at raise time the caller's dict already holds the
result of the first computed line, so the caller-visible state of the
supplied mapping is changed by a failing run, contradicting the claim that
an error leaves the supplied mapping unmutated. -/
theorem c1_counterexample :
    compute_lines tMut [] =
      .error (.formulaReference 2 (.code (.ref 9)), [(1, 42)]) ∧
    ([(1, 42)] : AMap) ≠ ([] : AMap) := by
  constructor
  · norm_num [compute_lines, reconcileInputs, inputLines, computedLines, orderedLines,
      lineLe, List.mergeSort, evalLoop, eval_computed_line, safe_eval, evalExpr,
      AMap.find, AMap.insert, AMap.contains, float_round, roundHalfAway, tMut]
  · simp

/-- C1 (amended): when `compute_lines` fails, no value is returned, but the
caller's dict is mutated in place: a failure of the input reconciliation
step leaves it unchanged, and a failure while evaluating a computed line
leaves it equal to the state reached after the computed lines already
processed (the initial dict extended with their rounded results); in every
case the final state is the result of a run of zero or more successful
computed-line steps from the supplied dict. -/
theorem c1_amended (t : AccountMoveTemplate) (m s : AMap) (e : PyError)
    (h : compute_lines t m = .error (e, s)) :
    ((e = PyError.missingInputLine ∨ e = PyError.extraneousInputLine) → s = m) ∧
    ∃ k, runSteps t.rounding ((computedLines t).take k) m = some s := by
  rcases compute_lines_error_parts t m s e h with ⟨hrec, hs⟩ | ⟨rem, hrec, hne, he, hs⟩ |
    ⟨rem, hrec, hrem, hloop⟩
  · subst hs
    exact ⟨fun _ => rfl, ⟨0, by rw [List.take_zero, runSteps]⟩⟩
  · subst hs
    exact ⟨fun _ => rfl, ⟨0, by rw [List.take_zero, runSteps]⟩⟩
  · refine ⟨fun hme => ?_, evalLoop_error_take _ _ _ _ _ hloop⟩
    have hcases := evalLoop_error_cases _ _ _ _ _ hloop
    rcases hme with hme | hme
    · exact absurd hme hcases.1
    · exact absurd hme hcases.2

/-- C1, witness for the amended theorem at the concrete failing run of
`tMut`. -/
theorem c1_amended_witness :
    compute_lines tMut [] =
      .error (.formulaReference 2 (.code (.ref 9)), [(1, 42)]) ∧
    (((PyError.formulaReference 2 (.code (.ref 9)) = PyError.missingInputLine ∨
       PyError.formulaReference 2 (.code (.ref 9)) = PyError.extraneousInputLine) →
        ([(1, 42)] : AMap) = ([] : AMap)) ∧
     ∃ k, runSteps tMut.rounding ((computedLines tMut).take k) [] = some [(1, 42)]) := by
  have h : compute_lines tMut [] =
      .error (.formulaReference 2 (.code (.ref 9)), [(1, 42)]) := by
    norm_num [compute_lines, reconcileInputs, inputLines, computedLines, orderedLines,
      lineLe, List.mergeSort, evalLoop, eval_computed_line, safe_eval, evalExpr,
      AMap.find, AMap.insert, AMap.contains, float_round, roundHalfAway, tMut]
  exact ⟨h, c1_amended tMut [] [(1, 42)] _ h⟩

/-! Claim C2. -/

/-- Template whose computed line (sequence 1) references the input line
with the higher sequence 2. -/
def tFwd : AccountMoveTemplate :=
  { rounding := 1/100,
    line_ids := [
      { id := 1, sequence := 2, type := .input, python_code := .absent },
      { id := 2, sequence := 1, type := .computed, python_code := .code (.ref 2) }] }

/-- C2, counterexample: the computed line with sequence 1 references
sequence 2, which is greater than its own sequence; the claim says this
must fail with the formula-reference error, but both the single line
evaluation and the whole `compute_lines` run succeed, because the context
holds every input amount regardless of sequence. -/
theorem c2_counterexample :
    eval_computed_line
      { id := 2, sequence := 1, type := .computed, python_code := .code (.ref 2) }
      [(2, 5)] = .ok [(2, 5), (1, 5)] ∧
    compute_lines tFwd [(2, 5)] = .ok [(2, 5), (1, 5)] := by
  constructor
  · norm_num [eval_computed_line, safe_eval, evalExpr, AMap.find, AMap.insert]
  · norm_num [compute_lines, reconcileInputs, inputLines, computedLines, orderedLines,
      lineLe, List.mergeSort, evalLoop, eval_computed_line, safe_eval, evalExpr,
      AMap.find, AMap.insert, AMap.contains, AMap.erase, float_round, roundHalfAway,
      tFwd]

/-- C2 (amended): when the loop of `compute_lines` is about to evaluate the
computed line at position `k` (in ascending sequence order), the context
holds exactly the sequences of all input lines together with the sequences
of the computed lines already processed, which all lie strictly below the
current line's sequence; a formula reference to a sequence that is not an
input line's and is either at least the current sequence or absent from
the template altogether fails with the formula-reference error carrying the
line's sequence and formula text.  (Unlike the original claim, input-line
sequences greater than or equal to the current sequence are available.) -/
theorem c2_amended (t : AccountMoveTemplate) (m mk : AMap) (k : ℕ)
    (l : AccountMoveTemplateLine)
    (hnd : (t.line_ids.map (fun x => x.sequence)).Nodup)
    (hkeys : ∀ j ∈ AMap.keys m, j ∈ (inputLines t).map (fun x => x.sequence))
    (hkeys2 : ∀ j ∈ (inputLines t).map (fun x => x.sequence), j ∈ AMap.keys m)
    (hrun : runSteps t.rounding ((computedLines t).take k) m = some mk) :
    (∀ j, AMap.contains mk j = true ↔
      (j ∈ (inputLines t).map (fun x => x.sequence) ∨
       j ∈ ((computedLines t).take k).map (fun x => x.sequence))) ∧
    ((computedLines t)[k]? = some l →
      (∀ s ∈ ((computedLines t).take k).map (fun x => x.sequence),
        s < l.sequence) ∧
      (∀ n : ℕ, l.python_code = .code (.ref n) →
        ((n : ℤ) ∉ (inputLines t).map (fun x => x.sequence)) →
        (l.sequence ≤ (n : ℤ) ∨ (n : ℤ) ∉ t.line_ids.map (fun x => x.sequence)) →
        eval_computed_line l mk =
          .error (.formulaReference l.sequence l.python_code))) := by
  have hpart1 : ∀ j, AMap.contains mk j = true ↔
      (j ∈ (inputLines t).map (fun x => x.sequence) ∨
       j ∈ ((computedLines t).take k).map (fun x => x.sequence)) := by
    intro j
    rw [runSteps_some_contains _ _ _ _ hrun j, AMap.contains_iff_mem_keys]
    constructor
    · rintro (hc | hc)
      · exact Or.inl (hkeys j hc)
      · exact Or.inr hc
    · rintro (hc | hc)
      · exact Or.inl (hkeys2 j hc)
      · exact Or.inr hc
  refine ⟨hpart1, fun hl => ?_⟩
  have hlt : ∀ s ∈ ((computedLines t).take k).map (fun x => x.sequence),
      s < l.sequence := by
    intro s hs
    rw [List.map_take] at hs
    have hmap : ((computedLines t).map (fun x => x.sequence))[k]? =
        some l.sequence := by
      rw [List.getElem?_map, hl]
      rfl
    exact pairwise_take_get _ _ k l.sequence (computedSeqs_strict t hnd) hmap s hs
  refine ⟨hlt, fun n hcode hnotin hge => ?_⟩
  have hnc : AMap.contains mk (n : ℤ) = false := by
    rw [← Bool.not_eq_true]
    intro hc
    rcases (hpart1 (n : ℤ)).mp hc with hc2 | hc2
    · exact hnotin hc2
    · rcases hge with hge | hge
      · have := hlt (n : ℤ) hc2
        omega
      · refine hge ((mem_lineSeqs_iff t (n : ℤ)).mpr (Or.inr ?_))
        rw [List.map_take] at hc2
        exact List.take_subset k _ hc2
  apply eval_computed_line_valueErr
  rw [hcode]
  simp only [safe_eval, evalExpr, (AMap.contains_false_iff_find mk (n : ℤ)).mp hnc]

/-- Computed line referencing the nonexistent sequence 9, for the C2
witness. -/
def lFwdW : AccountMoveTemplateLine :=
  { id := 2, sequence := 1, type := .computed, python_code := .code (.ref 9) }

/-- Template holding `lFwdW` next to one input line. -/
def tFwdW : AccountMoveTemplate :=
  { rounding := 1/100,
    line_ids := [
      { id := 1, sequence := 2, type := .input, python_code := .absent },
      lFwdW] }

/-- C2, witness for the amended theorem: at the concrete template `tFwdW`,
the first computed line references the absent sequence 9 and fails with
the formula-reference error. -/
theorem c2_amended_witness :
    (tFwdW.line_ids.map (fun x => x.sequence)).Nodup ∧
    runSteps tFwdW.rounding ((computedLines tFwdW).take 0) [(2, 5)] =
      some [(2, 5)] ∧
    eval_computed_line lFwdW [(2, 5)] =
      .error (.formulaReference lFwdW.sequence lFwdW.python_code) := by
  have hnd : (tFwdW.line_ids.map (fun x => x.sequence)).Nodup := by
    norm_num [tFwdW, lFwdW]
  have hrun : runSteps tFwdW.rounding ((computedLines tFwdW).take 0) [(2, 5)] =
      some [(2, 5)] := by
    rw [List.take_zero]
    rfl
  have hkeys : ∀ j ∈ AMap.keys [(2, 5)],
      j ∈ (inputLines tFwdW).map (fun x => x.sequence) := by
    norm_num [AMap.keys, inputLines, orderedLines, List.mergeSort, lineLe, tFwdW, lFwdW]
    exact ⟨{ id := 1, sequence := 2, type := LType.input, python_code := PyCode.absent },
      ⟨Or.inr rfl, rfl⟩, rfl⟩
  have hkeys2 : ∀ j ∈ (inputLines tFwdW).map (fun x => x.sequence),
      j ∈ AMap.keys [(2, 5)] := by
    norm_num [AMap.keys, inputLines, orderedLines, List.mergeSort, lineLe, tFwdW, lFwdW]
    exact fun j => ⟨fun h => LType.noConfusion h, fun h => h.symm⟩
  have hl : (computedLines tFwdW)[0]? = some lFwdW := by
    norm_num [computedLines, orderedLines, List.mergeSort, lineLe, tFwdW, lFwdW]
  have happ := c2_amended tFwdW [(2, 5)] [(2, 5)] 0 lFwdW hnd hkeys hkeys2 hrun
  refine ⟨hnd, hrun, ?_⟩
  refine ((happ.2 hl).2 9 ?_ ?_ ?_)
  · rfl
  · norm_num [inputLines, orderedLines, List.mergeSort, lineLe, tFwdW, lFwdW]
  · refine Or.inl ?_
    norm_num [lFwdW]

/-! Claim C3. -/

/-- C3: on any successful run, the key set of the returned dict is exactly
the set of sequence numbers of all of the template's lines, input and
computed alike. -/
theorem c3_completeness (t : AccountMoveTemplate) (m r : AMap)
    (h : compute_lines t m = .ok r) :
    ∀ j, AMap.contains r j = true ↔ j ∈ t.line_ids.map (fun l => l.sequence) := by
  obtain ⟨rem, hrec, hrem, hloop⟩ := compute_lines_ok_parts t m r h
  intro j
  rw [evalLoop_ok_contains _ _ _ _ hloop j, mem_lineSeqs_iff]
  have hin : ∀ l ∈ inputLines t, AMap.contains m l.sequence = true :=
    reconcileInputs_ok_contains _ _ _ _ hrec
  have hsub2 : ∀ j2 ∈ AMap.keys m, j2 ∈ (inputLines t).map (fun l => l.sequence) := by
    intro j2 hj2
    by_contra hj3
    have hmem := (reconcileInputs_ok_keys_outside _ _ _ _ hrec j2 hj3).mpr hj2
    rw [hrem] at hmem
    simp [AMap.keys] at hmem
  constructor
  · rintro (hc | hc)
    · exact Or.inl (hsub2 j ((AMap.contains_iff_mem_keys m j).mp hc))
    · exact Or.inr hc
  · rintro (hc | hc)
    · obtain ⟨l, hl, hlj⟩ := List.mem_map.mp hc
      exact Or.inl (hlj ▸ hin l hl)
    · exact Or.inr hc

/-- Template with one input line and one computed line, for the witnesses
of the success-path claims. -/
def tRun : AccountMoveTemplate :=
  { rounding := 1/100,
    line_ids := [
      { id := 1, sequence := 1, type := .input, python_code := .absent },
      { id := 2, sequence := 2, type := .computed,
        python_code := .code (.add (.ref 1) (.lit 5)) }] }

/-- C3, witness at a concrete successful run of `tRun`. -/
theorem c3_completeness_witness :
    compute_lines tRun [(1, 10)] = .ok [(1, 10), (2, 15)] ∧
    ∀ j, AMap.contains [(1, 10), (2, 15)] j = true ↔
      j ∈ tRun.line_ids.map (fun l => l.sequence) := by
  have h : compute_lines tRun [(1, 10)] = .ok [(1, 10), (2, 15)] := by
    norm_num [compute_lines, reconcileInputs, inputLines, computedLines, orderedLines,
      lineLe, List.mergeSort, evalLoop, eval_computed_line, safe_eval, evalExpr,
      AMap.find, AMap.insert, AMap.contains, AMap.erase, float_round, roundHalfAway,
      tRun]
  exact ⟨h, c3_completeness tRun [(1, 10)] [(1, 10), (2, 15)] h⟩

/-! Claim C4. -/

/-- C4: with the template's sequences unique (the SQL constraint) and the
supplied dict well formed, `compute_lines` fails with the missing-input
error exactly when some input line's sequence is absent from the supplied
dict, fails with the extraneous-input error exactly when every input
sequence is present but the dict holds a key that is no input line's
sequence, and in every other case the dict's key set equals exactly the
input lines' sequence set (the state in which formula evaluation is
reached). -/
theorem c4_reconciliation (t : AccountMoveTemplate) (m : AMap)
    (hnd : (t.line_ids.map (fun l => l.sequence)).Nodup)
    (hm : (AMap.keys m).Nodup) :
    (compute_lines t m = .error (.missingInputLine, m) ↔
      ∃ l ∈ inputLines t, AMap.contains m l.sequence = false) ∧
    (compute_lines t m = .error (.extraneousInputLine, m) ↔
      ((∀ l ∈ inputLines t, AMap.contains m l.sequence = true) ∧
       ∃ j ∈ AMap.keys m, j ∉ (inputLines t).map (fun l => l.sequence))) ∧
    ((∀ j, AMap.contains m j = true ↔
        j ∈ (inputLines t).map (fun l => l.sequence)) ∨
      compute_lines t m = .error (.missingInputLine, m) ∨
      compute_lines t m = .error (.extraneousInputLine, m)) := by
  have hndi : ((inputLines t).map (fun l => l.sequence)).Nodup := nodup_inputSeqs t hnd
  have hsub : ∀ l ∈ inputLines t, AMap.contains m l.sequence = true →
      AMap.contains m l.sequence = true := fun l hl h2 => h2
  have hmiff := reconcileInputs_missing_iff (inputLines t) m m hndi hsub
  refine ⟨⟨?_, ?_⟩, ⟨?_, ?_⟩, ?_⟩
  · intro h
    rcases compute_lines_error_parts t m m _ h with ⟨hrec, _⟩ | ⟨rem, _, _, he, _⟩ |
      ⟨rem, _, _, hloop⟩
    · exact hmiff.mp hrec
    · exact absurd he (by simp)
    · exact absurd rfl (evalLoop_error_cases _ _ _ _ _ hloop).1
  · intro h
    have hrec := hmiff.mpr h
    simp only [compute_lines, hrec]
  · intro h
    rcases compute_lines_error_parts t m m _ h with ⟨hrec, _⟩ | ⟨rem, hrec, hne, _, _⟩ |
      ⟨rem, _, _, hloop⟩
    · rcases reconcileInputs_error_cases _ _ _ _ hrec with he | he <;>
        exact absurd he (by simp)
    · have hall := reconcileInputs_ok_contains _ _ _ _ hrec
      refine ⟨hall, ?_⟩
      obtain ⟨rem2, hrec2, hkr2⟩ :=
        reconcileInputs_ok_keys (inputLines t) m m hndi hm hsub hall
      rw [hrec] at hrec2
      obtain rfl := Except.ok.inj hrec2
      obtain ⟨p, hp⟩ := List.exists_mem_of_ne_nil rem hne
      have hpk : p.1 ∈ AMap.keys rem := List.mem_map_of_mem Prod.fst hp
      obtain ⟨hpm, hpn⟩ := (hkr2 p.1).mp hpk
      exact ⟨p.1, hpm, hpn⟩
    · exact absurd rfl (evalLoop_error_cases _ _ _ _ _ hloop).2
  · rintro ⟨hall, j, hj, hjn⟩
    obtain ⟨rem, hrec, hkr⟩ :=
      reconcileInputs_ok_keys (inputLines t) m m hndi hm hsub hall
    have hjr : j ∈ AMap.keys rem := (hkr j).mpr ⟨hj, hjn⟩
    have hne : ¬(rem.isEmpty = true) := by
      intro hemp
      rw [List.isEmpty_iff.mp hemp] at hjr
      simp [AMap.keys] at hjr
    simp only [compute_lines, hrec, if_neg hne]
  · cases hr : reconcileInputs (inputLines t) m m with
    | error e =>
      rcases reconcileInputs_error_cases _ _ _ _ hr with he | he
      · subst he
        refine Or.inr (Or.inl ?_)
        simp only [compute_lines, hr]
      · subst he
        by_cases hall : ∀ l ∈ inputLines t, AMap.contains m l.sequence = true
        · obtain ⟨rem, hrec2, _⟩ :=
            reconcileInputs_ok_keys (inputLines t) m m hndi hm hsub hall
          rw [hr] at hrec2
          exact Except.noConfusion hrec2
        · push_neg at hall
          obtain ⟨l, hl, hlf⟩ := hall
          have hlf2 : AMap.contains m l.sequence = false := by simpa using hlf
          have hrec2 := hmiff.mpr ⟨l, hl, hlf2⟩
          rw [hr] at hrec2
          exact absurd (Except.error.inj hrec2) (by simp)
    | ok rem =>
      by_cases hemp : rem.isEmpty = true
      · refine Or.inl ?_
        intro j
        have hin := reconcileInputs_ok_contains _ _ _ _ hr
        constructor
        · intro hc
          by_contra hj3
          have hmem := (reconcileInputs_ok_keys_outside _ _ _ _ hr j hj3).mpr
            ((AMap.contains_iff_mem_keys m j).mp hc)
          rw [List.isEmpty_iff.mp hemp] at hmem
          simp [AMap.keys] at hmem
        · intro hc
          obtain ⟨l, hl, hlj⟩ := List.mem_map.mp hc
          exact hlj ▸ hin l hl
      · refine Or.inr (Or.inr ?_)
        simp only [compute_lines, hr, if_neg hemp]

/-- C4, witnesses at three concrete dicts against `tRun` covering the
missing, extraneous and exact-match outcomes. -/
theorem c4_reconciliation_witness :
    ((tRun.line_ids.map (fun l => l.sequence)).Nodup ∧
     (AMap.keys []).Nodup ∧ (AMap.keys [(1, 10), (7, 3)]).Nodup) ∧
    compute_lines tRun [] = .error (.missingInputLine, []) ∧
    compute_lines tRun [(1, 10), (7, 3)] =
      .error (.extraneousInputLine, [(1, 10), (7, 3)]) ∧
    (∃ l ∈ inputLines tRun, AMap.contains [] l.sequence = false) ∧
    ((∀ l ∈ inputLines tRun, AMap.contains [(1, 10), (7, 3)] l.sequence = true) ∧
     ∃ j ∈ AMap.keys [(1, 10), (7, 3)],
       j ∉ (inputLines tRun).map (fun l => l.sequence)) := by
  have hnd : (tRun.line_ids.map (fun l => l.sequence)).Nodup := by
    norm_num [tRun]
  have hmiss : compute_lines tRun [] = .error (.missingInputLine, []) := by
    norm_num [compute_lines, reconcileInputs, inputLines, computedLines, orderedLines,
      lineLe, List.mergeSort, evalLoop, eval_computed_line, safe_eval, evalExpr,
      AMap.find, AMap.insert, AMap.contains, AMap.erase, float_round, roundHalfAway,
      tRun]
  have hext : compute_lines tRun [(1, 10), (7, 3)] =
      .error (.extraneousInputLine, [(1, 10), (7, 3)]) := by
    norm_num [compute_lines, reconcileInputs, inputLines, computedLines, orderedLines,
      lineLe, List.mergeSort, evalLoop, eval_computed_line, safe_eval, evalExpr,
      AMap.find, AMap.insert, AMap.contains, AMap.erase, float_round, roundHalfAway,
      tRun]
  have h1 := (c4_reconciliation tRun [] hnd (by norm_num [AMap.keys])).1.mp hmiss
  have h2 := (c4_reconciliation tRun [(1, 10), (7, 3)] hnd
    (by norm_num [AMap.keys])).2.1.mp hext
  exact ⟨⟨hnd, by norm_num [AMap.keys], by norm_num [AMap.keys]⟩, hmiss, hext, h1, h2⟩

/-! Claim C5. -/

/-- C5: on any successful run of a template with unique line sequences,
every input line's amount in the returned dict is exactly the amount
supplied by the caller; rounding touches only computed lines. -/
theorem c5_input_preservation (t : AccountMoveTemplate) (m r : AMap)
    (hnd : (t.line_ids.map (fun l => l.sequence)).Nodup)
    (h : compute_lines t m = .ok r) :
    ∀ l ∈ inputLines t, AMap.find r l.sequence = AMap.find m l.sequence := by
  obtain ⟨rem, hrec, hrem, hloop⟩ := compute_lines_ok_parts t m r h
  intro l hl
  apply evalLoop_ok_find_outside _ _ _ _ hloop
  intro hc
  obtain ⟨c, hcmem, hcseq⟩ := List.mem_map.mp hc
  have hlo : l ∈ orderedLines t := (List.mem_filter.mp hl).1
  have hco : c ∈ orderedLines t := (List.mem_filter.mp hcmem).1
  have hlt : l.type = LType.input := by simpa using (List.mem_filter.mp hl).2
  have hct : c.type = LType.computed := by simpa using (List.mem_filter.mp hcmem).2
  have hcl : c = l := List.inj_on_of_nodup_map (nodup_orderedSeqs t hnd) hco hlo hcseq
  rw [hcl, hlt] at hct
  exact LType.noConfusion hct

/-- C5, witness: in the successful run of `tRun`, the input amount 10 at
sequence 1 comes back exactly as supplied. -/
theorem c5_input_preservation_witness :
    ((tRun.line_ids.map (fun l => l.sequence)).Nodup ∧
     compute_lines tRun [(1, 10)] = .ok [(1, 10), (2, 15)]) ∧
    ∀ l ∈ inputLines tRun,
      AMap.find [(1, 10), (2, 15)] l.sequence = AMap.find [(1, 10)] l.sequence := by
  have hnd : (tRun.line_ids.map (fun l => l.sequence)).Nodup := by
    norm_num [tRun]
  have h : compute_lines tRun [(1, 10)] = .ok [(1, 10), (2, 15)] := by
    norm_num [compute_lines, reconcileInputs, inputLines, computedLines, orderedLines,
      lineLe, List.mergeSort, evalLoop, eval_computed_line, safe_eval, evalExpr,
      AMap.find, AMap.insert, AMap.contains, AMap.erase, float_round, roundHalfAway,
      tRun]
  exact ⟨⟨hnd, h⟩, c5_input_preservation tRun [(1, 10)] [(1, 10), (2, 15)] hnd h⟩

/-! Claim C6. -/

/-- Stepwise equality of the two evaluation loops: the raw value stored by
`eval_computed_line` is immediately overwritten by its rounded form, so
the loop is the same as the loop that only ever stores rounded values. -/
theorem evalLoop_eq_rounded (prec : ℚ) (ls : List AccountMoveTemplateLine)
    (m : AMap) : evalLoop prec ls m = evalLoopRounded prec ls m := by
  induction ls generalizing m with
  | nil => rfl
  | cons a ls ih =>
    cases hs : safe_eval a.python_code m with
    | ok val =>
      have he : eval_computed_line a m = .ok (AMap.insert m a.sequence val) := by
        simp only [eval_computed_line, hs]
      simp only [evalLoop, evalLoopRounded, he, hs, AMap.find_insert_self,
        AMap.insert_insert]
      exact ih _
    | error e =>
      cases e <;> simp only [evalLoop, evalLoopRounded, eval_computed_line, hs]

/-- C6: the loop of `compute_lines` visits the computed lines in ascending
sequence order, and the value it leaves in the dict after each line — the
value visible to every later formula — is the rounded one: the loop equals
the variant that stores only `float_round` of each evaluation result. -/
theorem c6_order_and_rounding (t : AccountMoveTemplate) :
    List.Pairwise (fun a b => a ≤ b)
      ((computedLines t).map (fun l => l.sequence)) ∧
    ∀ m, evalLoop t.rounding (computedLines t) m =
      evalLoopRounded t.rounding (computedLines t) m :=
  ⟨computedSeqs_sorted t,
   fun m => evalLoop_eq_rounded t.rounding (computedLines t) m⟩

/-! Claim C7. -/

/-- C7: a `ValueError` from evaluating a computed line's formula (the
runtime error for a name not bound in the context) surfaces as the
formula-reference `UserError`, and a `SyntaxError` from parsing it surfaces
as the formula-syntax `UserError`, both carrying the offending line's
sequence and formula text; the loop of `compute_lines` propagates either
one unchanged. -/
theorem c7_error_translation (line : AccountMoveTemplateLine) (m : AMap)
    (prec : ℚ) (ls : List AccountMoveTemplateLine) :
    (safe_eval line.python_code m = .error .valueErr →
      (eval_computed_line line m =
        .error (.formulaReference line.sequence line.python_code) ∧
       evalLoop prec (line :: ls) m =
        .error (.formulaReference line.sequence line.python_code, m))) ∧
    (safe_eval line.python_code m = .error .synErr →
      (eval_computed_line line m =
        .error (.formulaSynError line.sequence line.python_code) ∧
       evalLoop prec (line :: ls) m =
        .error (.formulaSynError line.sequence line.python_code, m))) := by
  constructor <;> intro hs
  · have he := eval_computed_line_valueErr line m hs
    exact ⟨he, by simp only [evalLoop, he]⟩
  · have he := eval_computed_line_synErr line m hs
    exact ⟨he, by simp only [evalLoop, he]⟩

/-- C7, witness: a formula referencing the unbound sequence 9 yields the
formula-reference error, an unparseable formula yields the formula-syntax
error. -/
theorem c7_error_translation_witness :
    eval_computed_line
      { id := 1, sequence := 3, type := .computed, python_code := .code (.ref 9) }
      [] = .error (.formulaReference 3 (.code (.ref 9))) ∧
    eval_computed_line
      { id := 1, sequence := 4, type := .computed, python_code := .synErr }
      [] = .error (.formulaSynError 4 .synErr) :=
  ⟨((c7_error_translation
      { id := 1, sequence := 3, type := .computed, python_code := .code (.ref 9) }
      [] 1 []).1 rfl).1,
   ((c7_error_translation
      { id := 1, sequence := 4, type := .computed, python_code := .synErr }
      [] 1 []).2 rfl).1⟩

/-! Claim C8. -/

/-- Template whose single computed line divides by zero. -/
def tZero : AccountMoveTemplate :=
  { rounding := 1/100,
    line_ids := [
      { id := 1, sequence := 1, type := .computed,
        python_code := .code (.div (.lit 1) (.lit 0)) }] }

/-- C8: a well-formed formula that divides by zero makes `compute_lines`
abort with the bare `ZeroDivisionError`, which `eval_computed_line` does
not translate and which is none of the errors of the documented taxonomy
(missing input, extraneous input, formula reference, formula syntax,
missing formula). -/
theorem c8_unwrapped_zero_division :
    compute_lines tZero [] = .error (.zeroDivision, []) ∧
    PyError.zeroDivision ≠ PyError.missingInputLine ∧
    PyError.zeroDivision ≠ PyError.extraneousInputLine ∧
    (∀ s c, PyError.zeroDivision ≠ PyError.formulaReference s c) ∧
    (∀ s c, PyError.zeroDivision ≠ PyError.formulaSynError s c) ∧
    (∀ s, PyError.zeroDivision ≠ PyError.validationMissingFormula s) := by
  refine ⟨?_, by simp, by simp, fun s c => by simp, fun s c => by simp,
    fun s => by simp⟩
  norm_num [compute_lines, reconcileInputs, inputLines, computedLines, orderedLines,
    lineLe, List.mergeSort, evalLoop, eval_computed_line, safe_eval, evalExpr,
    AMap.find, AMap.insert, AMap.contains, AMap.erase, float_round, roundHalfAway,
    tZero]

/-! Claim C10. -/

/-- Unfolding of the save-time constraint over a list of lines. -/
theorem check_python_code_ok_iff (ls : List AccountMoveTemplateLine) :
    check_python_code ls = .ok () ↔
      ∀ x ∈ ls, ¬(x.type = LType.computed ∧ x.python_code = PyCode.absent) := by
  induction ls with
  | nil => simp [check_python_code]
  | cons a ls ih =>
    by_cases hb : a.type = LType.computed ∧ a.python_code = PyCode.absent
    · simp only [check_python_code, if_pos hb]
      constructor
      · intro h
        exact Except.noConfusion h
      · intro h
        exact absurd hb (h a (List.mem_cons_self a ls))
    · simp only [check_python_code, if_neg hb]
      rw [ih]
      constructor
      · intro h x hx
        rcases List.mem_cons.mp hx with hx | hx
        · exact hx ▸ hb
        · exact h x hx
      · intro h x hx
        exact h x (List.mem_cons_of_mem a hx)

/-- C10: the save-time constraint rejects a set of lines exactly when some
line is computed with falsy formula text; a single line is rejected with
the missing-formula validation error naming its sequence exactly when it
is computed and its formula text is falsy, and an input-typed line is
never rejected whatever its formula text holds. -/
theorem c10_missing_formula (ls : List AccountMoveTemplateLine)
    (l : AccountMoveTemplateLine) :
    (check_python_code ls = .ok () ↔
      ∀ x ∈ ls, ¬(x.type = LType.computed ∧ x.python_code = PyCode.absent)) ∧
    (check_python_code [l] = .error (.validationMissingFormula l.sequence) ↔
      (l.type = LType.computed ∧ l.python_code = PyCode.absent)) ∧
    (l.type = LType.input → check_python_code [l] = .ok ()) := by
  refine ⟨check_python_code_ok_iff ls, ⟨?_, ?_⟩, ?_⟩
  · intro h
    by_contra hb
    have hok : check_python_code [l] = .ok () := by
      simp only [check_python_code, if_neg hb]
    rw [hok] at h
    exact Except.noConfusion h
  · intro hb
    simp only [check_python_code, if_pos hb]
  · intro ht
    have hb : ¬(l.type = LType.computed ∧ l.python_code = PyCode.absent) := by
      rintro ⟨hc, _⟩
      rw [ht] at hc
      exact LType.noConfusion hc
    simp only [check_python_code, if_neg hb]

/-- C10, witness: a computed line with falsy formula text is rejected with
the validation error, an input line with the same falsy text is accepted. -/
theorem c10_missing_formula_witness :
    check_python_code
      [{ id := 1, sequence := 5, type := .computed, python_code := .absent }] =
      .error (.validationMissingFormula 5) ∧
    check_python_code
      [{ id := 1, sequence := 5, type := .input, python_code := .absent }] =
      .ok () :=
  ⟨(c10_missing_formula []
      { id := 1, sequence := 5, type := .computed, python_code := .absent }).2.1.mpr
      ⟨rfl, rfl⟩,
   (c10_missing_formula []
      { id := 1, sequence := 5, type := .input, python_code := .absent }).2.2 rfl⟩
